import Mathlib

/-!
Shallow embedding of `github_downloader.py` (class `GitHubDownloader`):
URL parsing, directory crawling with a visited set, file-content extraction
with an ordered fallback chain, and materialization of files on disk,
together with theorems settling the specification claims.

Remote state is modelled as finite association lists: directory pages
(`List (String × DirDoc)`) and file documents (`List (String × Doc)`).
The local filesystem is a pair of a file map and a directory list (`FS`).
Recursion in `crawl_directory` is embedded with explicit fuel; a theorem
shows any fuel exceeding the number of reachable locators suffices.
-/

namespace GithubDownloader

/-! ### Character-level string helpers mirroring the Python primitives -/

/-- Python `str.strip('/')`: drop leading and trailing `'/'` characters. -/
def stripSlashes (l : List Char) : List Char :=
  ((l.dropWhile (· = '/')).reverse.dropWhile (· = '/')).reverse

/-- Python `str.split('/')`: split on every `'/'`, keeping empty pieces
(so `"".split('/') = [""]`). -/
def splitSlash : List Char → List (List Char)
  | [] => [[]]
  | c :: cs =>
    match splitSlash cs with
    | [] => [[]]
    | h :: t => if c = '/' then [] :: h :: t else (c :: h) :: t

/-- The pattern removed by `.replace('.git', '')`. -/
def gitPat : List Char := ['.', 'g', 'i', 't']

/-- Python `str.replace('.git', '')`: a single left-to-right pass removing
every non-overlapping occurrence of `".git"`. -/
def stripGitAll : List Char → List Char
  | '.' :: 'g' :: 'i' :: 't' :: rest => stripGitAll rest
  | c :: cs => c :: stripGitAll cs
  | [] => []

/-- Bool test that `pat` occurs as a contiguous substring. Mirrors Python
`pat in s`. -/
def isSubstr (pat : List Char) : List Char → Bool
  | [] => pat.isEmpty
  | c :: cs => pat.isPrefixOf (c :: cs) || isSubstr pat cs

/-- The remainder after the first occurrence of `pat`; mirrors
Python `s.split(pat, 1)[1]` (defined when `pat` occurs). -/
def afterFirst (pat : List Char) : List Char → Option (List Char)
  | [] => if pat.isEmpty then some [] else none
  | c :: cs =>
    if pat.isPrefixOf (c :: cs) then some ((c :: cs).drop pat.length)
    else afterFirst pat cs

/-- Value of a hexadecimal digit, accepting both letter cases. -/
def hexVal (c : Char) : Option Nat :=
  if '0' ≤ c ∧ c ≤ '9' then some (c.toNat - '0'.toNat)
  else if 'a' ≤ c ∧ c ≤ 'f' then some (c.toNat - 'a'.toNat + 10)
  else if 'A' ≤ c ∧ c ≤ 'F' then some (c.toNat - 'A'.toNat + 10)
  else none

/-- Percent-decoding as in `urllib.parse.unquote`, restricted to the code
points produced by single-byte escapes; an invalid escape keeps the `'%'`
literally, exactly as `unquote` does. -/
def unquoteChars : List Char → List Char
  | '%' :: c1 :: c2 :: rest =>
    match hexVal c1, hexVal c2 with
    | some h1, some h2 => Char.ofNat (16 * h1 + h2) :: unquoteChars rest
    | _, _ => '%' :: unquoteChars (c1 :: c2 :: rest)
  | c :: rest => c :: unquoteChars rest
  | [] => []

/-- String-level wrapper for `unquoteChars`. -/
def unquote (s : String) : String := ⟨unquoteChars s.data⟩

/-! ### Path Resolver: `_parse_repo_url` and the `__init__` branch default -/

/-- `GitHubDownloader._parse_repo_url`, acting on the URL's path component
(as produced by `urlparse`): strip surrounding slashes, split on `'/'`,
require at least two segments, and apply `.replace('.git','')` to the
second segment.  `none` models the raised `ValueError`. -/
def parseRepoPath (path : String) : Option (String × String) :=
  match splitSlash (stripSlashes path.data) with
  | p0 :: p1 :: _ => some (⟨p0⟩, ⟨stripGitAll p1⟩)
  | _ => none

/-- Branch selection in `__init__`/`__main__`: the explicit argument if
given, else the default `"main"`. -/
def initBranch (explicit : Option String) : String := explicit.getD "main"

/-! ### Tree entries and directory-page extraction -/

/-- One entry of `_extract_items_from_payload`'s result list:
`{'type': 'blob'|'tree', 'path': ..., 'url': ...}`. -/
structure Item where
  type : String
  path : String
  url : String
deriving DecidableEq, Repr

/-- One element of the embedded JSON `payload.tree.items` list. -/
structure PayloadItem where
  name : String
  path : String
  contentType : String
deriving DecidableEq, Repr

/-- A fetched directory page: either a parseable embedded JSON payload
(`payload.tree.items`) or, absent that, the `a.js-navigation-open`
anchor hrefs of the rendered HTML. -/
structure DirDoc where
  payloadItems : Option (List PayloadItem)
  anchors : List String
deriving DecidableEq, Repr

/-- `self.web_base`. -/
def webBase : String := "https://github.com"

/-- Item built from a JSON payload entry (first branch of
`_extract_items_from_payload`). -/
def payloadItemToItem (owner repo branch : String) (it : PayloadItem) : Item :=
  let t := if it.contentType = "directory" then "tree" else "blob"
  { type := t, path := it.path,
    url := webBase ++ "/" ++ owner ++ "/" ++ repo ++ "/" ++ t ++ "/" ++ branch ++ "/" ++ it.path }

/-- Anchor-href filtering of `_extract_items_from_payload`'s HTML fallback:
skip empty hrefs, commit/blame links, parent links, links outside the
repository, and links outside the target branch; classify blob vs tree
and percent-decode the relative path. -/
def anchorToItem (owner repo branch : String) (href : String) : Option Item :=
  if href = "" then none
  else if isSubstr "/commit/".data href.data || isSubstr "/commits/".data href.data
      || isSubstr "/blame/".data href.data then none
  else if ("/..".data).isSuffixOf href.data then none
  else if ¬ (("/" ++ owner ++ "/" ++ repo).data.isPrefixOf href.data) then none
  else if isSubstr ("/blob/" ++ branch ++ "/").data href.data then
    (afterFirst ("/blob/" ++ branch ++ "/").data href.data).map
      (fun rel => ⟨"blob", unquote ⟨rel⟩, webBase ++ href⟩)
  else if isSubstr ("/tree/" ++ branch ++ "/").data href.data then
    (afterFirst ("/tree/" ++ branch ++ "/").data href.data).map
      (fun rel => ⟨"tree", unquote ⟨rel⟩, webBase ++ href⟩)
  else none

/-- `_extract_items_from_payload`: prefer the embedded JSON payload, else
parse the anchor links. -/
def extractItems (owner repo branch : String) (d : DirDoc) : List Item :=
  match d.payloadItems with
  | some its => its.map (payloadItemToItem owner repo branch)
  | none => d.anchors.filterMap (anchorToItem owner repo branch)

/-! ### Network gateway over a finite remote -/

/-- `_get_page_content` for directory pages over a finite remote:
`none` models a 404 or a request error. -/
def fetchDir (pages : List (String × DirDoc)) (u : String) : Option DirDoc :=
  (pages.find? (fun p => p.1 == u)).map (fun p => p.2)

/-! ### File-content extraction: `_scrape_file_content` -/

/-- A fetched blob page: the `payload.blob.rawLines` field when an embedded
JSON script carries one, the `td.blob-code-inner` cell texts in document
order, the legacy read-only textarea text, and whether the page shows a
raw-download affordance (present on binary-file pages; the scraper never
inspects it). -/
structure Doc where
  rawLines : Option (List String)
  blobCells : List String
  textarea : Option String
  hasRawDownload : Bool
deriving DecidableEq, Repr

/-- The strategy chain of `_scrape_file_content` on a fetched page:
(1) JSON `rawLines` joined by newline, (2) table cells joined by newline,
(3) textarea text, else `none` (treated as binary). -/
def scrapeDoc (d : Doc) : Option String :=
  match d.rawLines with
  | some ls => some (String.intercalate "\n" ls)
  | none =>
    match d.blobCells with
    | c :: cs => some (String.intercalate "\n" (c :: cs))
    | [] =>
      match d.textarea with
      | some t => some t
      | none => none

/-- `_scrape_file_content`: fetch the blob page (a failed fetch yields
`none`) and run the strategy chain. -/
def scrapeFileContent (fileDocs : List (String × Doc)) (u : String) : Option String :=
  match (fileDocs.find? (fun p => p.1 == u)).map (fun p => p.2) with
  | none => none
  | some d => scrapeDoc d

/-! ### Materializer: `_process_file` -/

/-- Local filesystem: written files (destination path ↦ content, in write
order) and the set of directories created so far. -/
structure FS where
  files : List (String × String)
  dirs : List String
deriving DecidableEq, Repr

/-- The run statistics dictionary `self.stats`. -/
structure Stats where
  files : Nat
  dirs : Nat
  errors : Nat
  size : Nat
  skipped : Nat
deriving DecidableEq, Repr

/-- `self.stats` as initialized in `__init__`. -/
def initStats : Stats := ⟨0, 0, 0, 0, 0⟩

/-- Destination path of an item: `Path(self.output_dir) / item['path']`. -/
def destOf (outputDir : String) (item : Item) : String :=
  outputDir ++ "/" ++ item.path

/-- All proper ancestors of a destination path, outermost first; these are
the directories `file_path.parent.mkdir(parents=True)` creates. -/
def pathAncestors (p : String) : List String :=
  let segs := splitSlash p.data
  (List.range (segs.length - 1)).map
    (fun i => ⟨List.intercalate ['/'] (segs.take (i + 1))⟩)

/-- Add the directories not yet present (mkdir with `exist_ok=True`). -/
def addDirs (ds ns : List String) : List String :=
  ns.foldl (fun acc d => if d ∈ acc then acc else acc ++ [d]) ds

/-- Bool test that a destination file already exists on disk. -/
def hasDest (files : List (String × String)) (dest : String) : Bool :=
  (files.find? (fun p => p.1 == dest)).isSome

/-- `_process_file`: create parent directories, skip when the destination
exists, otherwise scrape; a `some` content is written (updating the
`files` and `size` counters), a `none` increments `skipped`. -/
def processFile (scrape : String → Option String) (outputDir : String)
    (st : FS × Stats) (item : Item) : FS × Stats :=
  let dest := destOf outputDir item
  let fs1 : FS := ⟨st.1.files, addDirs st.1.dirs (pathAncestors dest)⟩
  if hasDest fs1.files dest then (fs1, st.2)
  else
    match scrape item.url with
    | some content =>
      (⟨fs1.files ++ [(dest, content)], fs1.dirs⟩,
       { st.2 with files := st.2.files + 1, size := st.2.size + content.length })
    | none => (fs1, { st.2 with skipped := st.2.skipped + 1 })

/-- Sequential processing of a list of discovered file entries. -/
def processAll (scrape : String → Option String) (outputDir : String)
    (st : FS × Stats) (items : List Item) : FS × Stats :=
  items.foldl (processFile scrape outputDir) st

/-! ### Tree Discoverer: `crawl_directory` with explicit fuel -/

/-- Serial recursion over the subdirectories of one listing, threading the
visited set and accumulating the yielded file entries in order. -/
def crawlFold (step : Finset String → String → Option (Finset String × List Item))
    (init : Finset String × List Item) (dirs : List String) :
    Option (Finset String × List Item) :=
  match dirs with
  | [] => some init
  | d :: rest =>
    match step init.1 d with
    | none => none
    | some (v2, zs) => crawlFold step (v2, init.2 ++ zs) rest

/-- `crawl_directory`, with fuel making the recursion structural: an
already-visited URL is not traversed; otherwise the URL is inserted into
the visited set, the page fetched (a failed fetch acts as an empty
directory), blob items are yielded, and tree items are crawled serially.
`none` only when fuel runs out. -/
def crawlF (owner repo branch : String) (pages : List (String × DirDoc)) :
    Nat → Finset String → String → Option (Finset String × List Item)
  | 0, _, _ => none
  | fuel + 1, visited, u =>
    if u ∈ visited then some (visited, [])
    else
      let visited1 := insert u visited
      match fetchDir pages u with
      | none => some (visited1, [])
      | some doc =>
        let items := extractItems owner repo branch doc
        crawlFold (crawlF owner repo branch pages fuel)
          (visited1, items.filter (fun it => it.type == "blob"))
          ((items.filter (fun it => it.type == "tree")).map Item.url)

/-- Every item URL any directory page of the remote can produce. -/
def allItemUrls (owner repo branch : String) (pages : List (String × DirDoc)) :
    List String :=
  pages.foldr
    (fun p acc => (extractItems owner repo branch p.2).map Item.url ++ acc) []

/-- The finite universe of locators a crawl started at `root` can touch. -/
def crawlUniverse (owner repo branch : String) (pages : List (String × DirDoc))
    (root : String) : Finset String :=
  insert root (allItemUrls owner repo branch pages).toFinset

/-! ### `start`: branch fallback and the whole run -/

/-- Root listing URL `f"{web_base}/{owner}/{repo}/tree/{branch}"`. -/
def rootUrl (owner repo branch : String) : String :=
  webBase ++ "/" ++ owner ++ "/" ++ repo ++ "/tree/" ++ branch

/-- The branch-fallback step of `start`: when the root fetch fails and the
current branch is `"main"`, switch to `"master"`; otherwise keep the
branch. -/
def resolveStartBranch (pages : List (String × DirDoc))
    (owner repo branch : String) : String :=
  if (fetchDir pages (rootUrl owner repo branch)).isSome then branch
  else if branch = "main" then "master" else branch

/-- `start`: apply the branch fallback, crawl from the (possibly switched)
root, and process every yielded file entry.  The fuel is one more than the
size of the reachable-locator universe, which the termination theorem
shows is always enough. -/
def startRun (pages : List (String × DirDoc)) (fileDocs : List (String × Doc))
    (owner repo branch outputDir : String) : FS × Stats :=
  let b := resolveStartBranch pages owner repo branch
  let root := rootUrl owner repo b
  match crawlF owner repo b pages ((crawlUniverse owner repo b pages root).card + 1)
      ∅ root with
  | none => (⟨[], []⟩, initStats)
  | some (_, files) =>
    processAll (scrapeFileContent fileDocs) outputDir (⟨[], []⟩, initStats) files

/-! ### Concrete remote trees used as test inputs -/

/-- A remote whose root listing (parsed from the rendered HTML anchors)
links the same file twice. -/
def dupLinkPages : List (String × DirDoc) :=
  [(rootUrl "o" "r" "main", ⟨none, ["/o/r/blob/main/a.txt", "/o/r/blob/main/a.txt"]⟩)]

/-- A remote with three sibling directories `a`, `b`, `c` under the root;
the listing for `b` is absent, so fetching it fails. -/
def siblingPages : List (String × DirDoc) :=
  [(rootUrl "o" "r" "main",
    ⟨some [⟨"a", "a", "directory"⟩, ⟨"b", "b", "directory"⟩, ⟨"c", "c", "directory"⟩], []⟩),
   ("https://github.com/o/r/tree/main/a", ⟨some [⟨"f1", "a/f1", "file"⟩], []⟩),
   ("https://github.com/o/r/tree/main/c", ⟨some [⟨"f2", "c/f2", "file"⟩], []⟩)]

/-- Blob pages for the two files of `siblingPages`. -/
def siblingDocs : List (String × Doc) :=
  [("https://github.com/o/r/blob/main/a/f1", ⟨some ["hello"], [], none, false⟩),
   ("https://github.com/o/r/blob/main/c/f2", ⟨some ["world"], [], none, false⟩)]

/-! ### Lemmas about the Materializer -/

theorem addDirs_mem_left : ∀ (ns ds : List String) (d : String), d ∈ ds → d ∈ addDirs ds ns := by
  intro ns
  induction ns with
  | nil => intro ds d h; simpa [addDirs] using h
  | cons n ns ih =>
    intro ds d h
    have h1 : d ∈ (if n ∈ ds then ds else ds ++ [n]) := by
      split
      · exact h
      · exact List.mem_append_left _ h
    simpa [addDirs, List.foldl] using ih _ _ h1

theorem addDirs_mem_right : ∀ (ns ds : List String) (d : String), d ∈ ns → d ∈ addDirs ds ns := by
  intro ns
  induction ns with
  | nil => intro ds d h; simp at h
  | cons n ns ih =>
    intro ds d h
    rcases List.mem_cons.mp h with h | h
    · subst h
      have h1 : d ∈ (if d ∈ ds then ds else ds ++ [d]) := by
        split
        · assumption
        · exact List.mem_append_right _ (List.mem_singleton.mpr rfl)
      simpa [addDirs, List.foldl] using addDirs_mem_left ns _ _ h1
    · simpa [addDirs, List.foldl] using ih _ _ h

theorem hasDest_append (l t : List (String × String)) (dest : String)
    (h : hasDest l dest = true) : hasDest (l ++ t) dest = true := by
  induction l with
  | nil => simp [hasDest] at h
  | cons a l ih =>
    by_cases hp : (a.1 == dest) = true
    · simp [hasDest, List.find?, hp]
    · simp only [hasDest, List.cons_append, List.find?] at *
      rw [Bool.not_eq_true] at hp
      rw [hp] at h ⊢
      exact ih h

theorem hasDest_append_self (l : List (String × String)) (dest c : String) :
    hasDest (l ++ [(dest, c)]) dest = true := by
  induction l with
  | nil => simp [hasDest, List.find?]
  | cons a l ih =>
    by_cases hp : (a.1 == dest) = true
    · simp [hasDest, List.find?, hp]
    · simp only [hasDest, List.cons_append, List.find?] at *
      rw [Bool.not_eq_true] at hp
      rw [hp]
      exact ih

theorem processFile_of_hasDest (s : String → Option String) (o : String) (st : FS × Stats)
    (it : Item) (h : hasDest st.1.files (destOf o it) = true) :
    processFile s o st it
      = (⟨st.1.files, addDirs st.1.dirs (pathAncestors (destOf o it))⟩, st.2) := by
  simp [processFile, h]

theorem processFile_of_write (s : String → Option String) (o : String) (st : FS × Stats)
    (it : Item) (c : String) (h1 : hasDest st.1.files (destOf o it) = false)
    (h2 : s it.url = some c) :
    processFile s o st it
      = (⟨st.1.files ++ [(destOf o it, c)], addDirs st.1.dirs (pathAncestors (destOf o it))⟩,
         { st.2 with files := st.2.files + 1, size := st.2.size + c.length }) := by
  simp [processFile, h1, h2]

theorem processFile_of_skip (s : String → Option String) (o : String) (st : FS × Stats)
    (it : Item) (h1 : hasDest st.1.files (destOf o it) = false)
    (h2 : s it.url = none) :
    processFile s o st it
      = (⟨st.1.files, addDirs st.1.dirs (pathAncestors (destOf o it))⟩,
         { st.2 with skipped := st.2.skipped + 1 }) := by
  simp [processFile, h1, h2]

theorem processFile_dirs (s : String → Option String) (o : String) (st : FS × Stats)
    (it : Item) :
    (processFile s o st it).1.dirs = addDirs st.1.dirs (pathAncestors (destOf o it)) := by
  by_cases h : hasDest st.1.files (destOf o it) = true
  · rw [processFile_of_hasDest s o st it h]
  · rw [Bool.not_eq_true] at h
    cases h2 : s it.url with
    | none => rw [processFile_of_skip s o st it h h2]
    | some c => rw [processFile_of_write s o st it c h h2]

theorem processFile_errors (s : String → Option String) (o : String) (st : FS × Stats)
    (it : Item) : (processFile s o st it).2.errors = st.2.errors := by
  by_cases h : hasDest st.1.files (destOf o it) = true
  · rw [processFile_of_hasDest s o st it h]
  · rw [Bool.not_eq_true] at h
    cases h2 : s it.url with
    | none => rw [processFile_of_skip s o st it h h2]
    | some c => rw [processFile_of_write s o st it c h h2]

theorem processAll_errors (s : String → Option String) (o : String) :
    ∀ (items : List Item) (st : FS × Stats),
      (processAll s o st items).2.errors = st.2.errors := by
  intro items
  induction items with
  | nil => intro st; rfl
  | cons it items ih =>
    intro st
    have : processAll s o st (it :: items) = processAll s o (processFile s o st it) items := rfl
    rw [this, ih, processFile_errors]

theorem hasDest_processFile_mono (s : String → Option String) (o : String) (st : FS × Stats)
    (it : Item) (dest : String) (h : hasDest st.1.files dest = true) :
    hasDest (processFile s o st it).1.files dest = true := by
  by_cases h1 : hasDest st.1.files (destOf o it) = true
  · rw [processFile_of_hasDest s o st it h1]; exact h
  · rw [Bool.not_eq_true] at h1
    cases h2 : s it.url with
    | none => rw [processFile_of_skip s o st it h1 h2]; exact h
    | some c =>
      rw [processFile_of_write s o st it c h1 h2]
      exact hasDest_append _ _ _ h

theorem hasDest_processAll_mono (s : String → Option String) (o : String) :
    ∀ (items : List Item) (st : FS × Stats) (dest : String),
      hasDest st.1.files dest = true →
      hasDest (processAll s o st items).1.files dest = true := by
  intro items
  induction items with
  | nil => intro st dest h; exact h
  | cons it items ih =>
    intro st dest h
    exact ih _ _ (hasDest_processFile_mono s o st it dest h)

theorem processAll_covers (s : String → Option String) (o : String) :
    ∀ (items : List Item) (st : FS × Stats) (it : Item), it ∈ items →
      hasDest (processAll s o st items).1.files (destOf o it) = true ∨ s it.url = none := by
  intro items
  induction items with
  | nil => intro st it h; simp at h
  | cons a items ih =>
    intro st it h
    rcases List.mem_cons.mp h with h | h
    · subst h
      by_cases h1 : hasDest st.1.files (destOf o it) = true
      · left
        have hstep : hasDest (processFile s o st it).1.files (destOf o it) = true := by
          rw [processFile_of_hasDest s o st it h1]; exact h1
        exact hasDest_processAll_mono s o items _ _ hstep
      · rw [Bool.not_eq_true] at h1
        cases h2 : s it.url with
        | none => right; rfl
        | some c =>
          left
          have hstep : hasDest (processFile s o st it).1.files (destOf o it) = true := by
            rw [processFile_of_write s o st it c h1 h2]
            exact hasDest_append_self _ _ _
          exact hasDest_processAll_mono s o items _ _ hstep
    · exact ih (processFile s o st a) it h

theorem processAll_noop (s : String → Option String) (o : String) :
    ∀ (items : List Item) (st : FS × Stats),
      (∀ it ∈ items, hasDest st.1.files (destOf o it) = true ∨ s it.url = none) →
      (processAll s o st items).1.files = st.1.files ∧
      (processAll s o st items).2.files = st.2.files ∧
      (processAll s o st items).2.size = st.2.size := by
  intro items
  induction items with
  | nil => intro st _; exact ⟨rfl, rfl, rfl⟩
  | cons it items ih =>
    intro st h
    have step : (processFile s o st it).1.files = st.1.files ∧
        (processFile s o st it).2.files = st.2.files ∧
        (processFile s o st it).2.size = st.2.size := by
      by_cases h1 : hasDest st.1.files (destOf o it) = true
      · rw [processFile_of_hasDest s o st it h1]; exact ⟨rfl, rfl, rfl⟩
      · rw [Bool.not_eq_true] at h1
        rcases h it (List.mem_cons_self it items) with hx | hx
        · rw [h1] at hx; cases hx
        · rw [processFile_of_skip s o st it h1 hx]; exact ⟨rfl, rfl, rfl⟩
    have hrest : ∀ a ∈ items,
        hasDest (processFile s o st it).1.files (destOf o a) = true ∨ s a.url = none := by
      intro a ha
      rcases h a (List.mem_cons_of_mem it ha) with hx | hx
      · left; rw [step.1]; exact hx
      · right; exact hx
    have hall := ih (processFile s o st it) hrest
    refine ⟨?_, ?_, ?_⟩
    · calc (processAll s o st (it :: items)).1.files
          = (processAll s o (processFile s o st it) items).1.files := rfl
        _ = (processFile s o st it).1.files := hall.1
        _ = st.1.files := step.1
    · calc (processAll s o st (it :: items)).2.files
          = (processAll s o (processFile s o st it) items).2.files := rfl
        _ = (processFile s o st it).2.files := hall.2.1
        _ = st.2.files := step.2.1
    · calc (processAll s o st (it :: items)).2.size
          = (processAll s o (processFile s o st it) items).2.size := rfl
        _ = (processFile s o st it).2.size := hall.2.2
        _ = st.2.size := step.2.2

/-! ### Claim theorems: Materializer -/

/-- Claim C2: materialization is idempotent — running the processing pass a second
time over the same entries against the resulting filesystem performs zero
writes (the written-file counter and total size are unchanged) and leaves
the file contents on disk unchanged. -/
theorem materialize_idempotent (s : String → Option String) (o : String)
    (items : List Item) (st0 : FS × Stats) :
    (processAll s o (processAll s o st0 items) items).1.files
        = (processAll s o st0 items).1.files ∧
    (processAll s o (processAll s o st0 items) items).2.files
        = (processAll s o st0 items).2.files ∧
    (processAll s o (processAll s o st0 items) items).2.size
        = (processAll s o st0 items).2.size := by
  apply processAll_noop
  intro it hit
  exact processAll_covers s o items st0 it hit

/-- Counterexample to claim C3: for a fetched document matching no extraction
strategy and exposing no binary-download affordance (the spec's `Empty`
kind), the code creates no file at all — the filesystem stays empty, so in
particular no zero-length file is created at the destination. -/
theorem empty_doc_creates_no_file :
    scrapeDoc ⟨none, [], none, false⟩ = none ∧
    (processFile (scrapeFileContent [("u", ⟨none, [], none, false⟩)]) "out"
        (⟨[], []⟩, initStats) ⟨"blob", "a.txt", "u"⟩).1.files = [] ∧
    (processFile (scrapeFileContent [("u", ⟨none, [], none, false⟩)]) "out"
        (⟨[], []⟩, initStats) ⟨"blob", "a.txt", "u"⟩).2.skipped = 1 := by
  refine ⟨rfl, rfl, rfl⟩

/-- Claim C3 amended: when no extraction strategy matches and no binary-download
affordance is present, the Materializer creates no file at the destination
(the file map is unchanged) and counts the entry as skipped — the code does
not distinguish this `Empty` case from `Binary`. -/
theorem empty_result_skipped (fileDocs : List (String × Doc)) (d : Doc) (o : String)
    (st : FS × Stats) (it : Item)
    (h1 : d.rawLines = none) (h2 : d.blobCells = []) (h3 : d.textarea = none)
    (h4 : d.hasRawDownload = false)
    (h5 : (fileDocs.find? (fun p => p.1 == it.url)).map (fun p => p.2) = some d)
    (h6 : hasDest st.1.files (destOf o it) = false) :
    (processFile (scrapeFileContent fileDocs) o st it).1.files = st.1.files ∧
    (processFile (scrapeFileContent fileDocs) o st it).2.skipped = st.2.skipped + 1 ∧
    (processFile (scrapeFileContent fileDocs) o st it).2.files = st.2.files := by
  have hs : scrapeFileContent fileDocs it.url = none := by
    simp [scrapeFileContent, h5, scrapeDoc, h1, h2, h3]
  rw [processFile_of_skip _ o st it h6 hs]
  exact ⟨rfl, rfl, rfl⟩

/-- Witness for the amended C3 theorem at a concrete document. -/
theorem empty_result_skipped_witness :
    (processFile (scrapeFileContent [("u", ⟨none, [], none, false⟩)]) "out"
        (⟨[], []⟩, initStats) ⟨"blob", "b.txt", "u"⟩).1.files = [] ∧
    (processFile (scrapeFileContent [("u", ⟨none, [], none, false⟩)]) "out"
        (⟨[], []⟩, initStats) ⟨"blob", "b.txt", "u"⟩).2.skipped = 0 + 1 ∧
    (processFile (scrapeFileContent [("u", ⟨none, [], none, false⟩)]) "out"
        (⟨[], []⟩, initStats) ⟨"blob", "b.txt", "u"⟩).2.files = 0 :=
  empty_result_skipped [("u", ⟨none, [], none, false⟩)] ⟨none, [], none, false⟩ "out"
    (⟨[], []⟩, initStats) ⟨"blob", "b.txt", "u"⟩ rfl rfl rfl rfl (by decide) (by decide)

/-- Claim C4: a `Binary` extraction result (no strategy recovers text from the
fetched document, which only offers the raw-download affordance) creates no
file at the destination, increments the skipped counter, and leaves the
written-file counter unchanged; the run continues. -/
theorem binary_not_materialized (fileDocs : List (String × Doc)) (d : Doc) (o : String)
    (st : FS × Stats) (it : Item)
    (h1 : d.rawLines = none) (h2 : d.blobCells = []) (h3 : d.textarea = none)
    (h4 : d.hasRawDownload = true)
    (h5 : (fileDocs.find? (fun p => p.1 == it.url)).map (fun p => p.2) = some d)
    (h6 : hasDest st.1.files (destOf o it) = false) :
    (processFile (scrapeFileContent fileDocs) o st it).1.files = st.1.files ∧
    (processFile (scrapeFileContent fileDocs) o st it).2.skipped = st.2.skipped + 1 ∧
    (processFile (scrapeFileContent fileDocs) o st it).2.files = st.2.files := by
  have hs : scrapeFileContent fileDocs it.url = none := by
    simp [scrapeFileContent, h5, scrapeDoc, h1, h2, h3]
  rw [processFile_of_skip _ o st it h6 hs]
  exact ⟨rfl, rfl, rfl⟩

/-- Witness for the C4 theorem at a concrete binary-page document. -/
theorem binary_not_materialized_witness :
    (processFile (scrapeFileContent [("u", ⟨none, [], none, true⟩)]) "out"
        (⟨[], []⟩, initStats) ⟨"blob", "img.png", "u"⟩).1.files = [] ∧
    (processFile (scrapeFileContent [("u", ⟨none, [], none, true⟩)]) "out"
        (⟨[], []⟩, initStats) ⟨"blob", "img.png", "u"⟩).2.skipped = 0 + 1 ∧
    (processFile (scrapeFileContent [("u", ⟨none, [], none, true⟩)]) "out"
        (⟨[], []⟩, initStats) ⟨"blob", "img.png", "u"⟩).2.files = 0 :=
  binary_not_materialized [("u", ⟨none, [], none, true⟩)] ⟨none, [], none, true⟩ "out"
    (⟨[], []⟩, initStats) ⟨"blob", "img.png", "u"⟩ rfl rfl rfl rfl (by decide) (by decide)

/-- Claim C7: the extraction chain applies its strategies in fixed order with
first success winning — a present `rawLines` payload yields its lines
joined by newline regardless of the other representations; without it a
nonempty code-cell table yields the cells joined by newline regardless of
the textarea; only then is the textarea text used; with none of the three,
extraction yields no text. -/
theorem extraction_chain_order (ls cells : List String) (ta : Option String)
    (aff : Bool) (t : String) (hc : cells ≠ []) :
    scrapeDoc ⟨some ls, cells, ta, aff⟩ = some (String.intercalate "\n" ls) ∧
    scrapeDoc ⟨none, cells, ta, aff⟩ = some (String.intercalate "\n" cells) ∧
    scrapeDoc ⟨none, [], some t, aff⟩ = some t ∧
    scrapeDoc ⟨none, [], none, aff⟩ = none := by
  refine ⟨rfl, ?_, rfl, rfl⟩
  cases cells with
  | nil => exact absurd rfl hc
  | cons c cs => rfl

/-- Witness for the extraction-chain theorem at concrete representations. -/
theorem extraction_chain_order_witness :
    (["x", "y"] : List String) ≠ [] ∧
    (scrapeDoc ⟨some ["a"], ["x", "y"], some "z", true⟩ = some (String.intercalate "\n" ["a"]) ∧
     scrapeDoc ⟨none, ["x", "y"], some "z", true⟩ = some (String.intercalate "\n" ["x", "y"]) ∧
     scrapeDoc ⟨none, [], some "z", true⟩ = some "z" ∧
     scrapeDoc ⟨none, [], none, true⟩ = none) :=
  ⟨by decide, extraction_chain_order ["a"] ["x", "y"] (some "z") true "z" (by decide)⟩

/-- Claim C10: processing a file entry creates the whole parent-directory chain
of the destination path, in every branch — also when the entry is skipped
because the destination already exists or because the content is binary. -/
theorem parent_dirs_created (s : String → Option String) (o : String) (st : FS × Stats)
    (it : Item) (p : String) (hp : p ∈ pathAncestors (destOf o it)) :
    p ∈ (processFile s o st it).1.dirs := by
  rw [processFile_dirs]
  exact addDirs_mem_right _ _ _ hp

/-- Witness for the parent-directory theorem: processing `sub/a.txt` under
`out` creates `out` and `out/sub` even though the content is binary and no
file is written. -/
theorem parent_dirs_created_witness :
    "out/sub" ∈ pathAncestors (destOf "out" ⟨"blob", "sub/a.txt", "u"⟩) ∧
    "out/sub" ∈ (processFile (fun _ => none) "out" (⟨[], []⟩, initStats)
        ⟨"blob", "sub/a.txt", "u"⟩).1.dirs :=
  ⟨by decide, parent_dirs_created (fun _ => none) "out" (⟨[], []⟩, initStats)
      ⟨"blob", "sub/a.txt", "u"⟩ "out/sub" (by decide)⟩

/-! ### Lemmas about the crawler -/

theorem crawlFold_mono (step : Finset String → String → Option (Finset String × List Item))
    (hstep : ∀ v u r, step v u = some r → v ⊆ r.1) :
    ∀ (ds : List String) (init : Finset String × List Item) (r : Finset String × List Item),
      crawlFold step init ds = some r → init.1 ⊆ r.1 := by
  intro ds
  induction ds with
  | nil =>
    intro init r h
    simp only [crawlFold, Option.some.injEq] at h
    rw [← h]
  | cons d rest ih =>
    intro init r h
    cases heq : step init.1 d with
    | none =>
      simp only [crawlFold, heq] at h
      exact Option.noConfusion h
    | some p =>
      obtain ⟨v2, zs⟩ := p
      simp only [crawlFold, heq] at h
      exact subset_trans (hstep _ _ _ heq) (ih (v2, init.2 ++ zs) r h)

theorem crawlF_mono (owner repo branch : String) (pages : List (String × DirDoc)) :
    ∀ (fuel : Nat) (v : Finset String) (u : String) (r : Finset String × List Item),
      crawlF owner repo branch pages fuel v u = some r → v ⊆ r.1 := by
  intro fuel
  induction fuel with
  | zero => intro v u r h; simp [crawlF] at h
  | succ n ih =>
    intro v u r h
    by_cases hv : u ∈ v
    · simp only [crawlF, if_pos hv, Option.some.injEq] at h
      rw [← h]
    · simp only [crawlF, if_neg hv] at h
      cases hf : fetchDir pages u with
      | none =>
        rw [hf] at h
        simp only [Option.some.injEq] at h
        rw [← h]
        exact Finset.subset_insert u v
      | some doc =>
        rw [hf] at h
        exact subset_trans (Finset.subset_insert u v) (crawlFold_mono _ ih _ _ _ h)

theorem crawlFold_total (step : Finset String → String → Option (Finset String × List Item))
    (U : Finset String) (n : Nat)
    (hmono : ∀ v u r, step v u = some r → v ⊆ r.1)
    (hstep : ∀ v u, u ∈ U → (U \ v).card < n → (step v u).isSome = true) :
    ∀ (ds : List String) (init : Finset String × List Item),
      (∀ d ∈ ds, d ∈ U) → (U \ init.1).card < n →
      (crawlFold step init ds).isSome = true := by
  intro ds
  induction ds with
  | nil => intro init _ _; simp [crawlFold]
  | cons d rest ih =>
    intro init hds hcard
    have hs := hstep init.1 d (hds d (List.mem_cons_self d rest)) hcard
    cases heq : step init.1 d with
    | none => rw [heq] at hs; simp at hs
    | some p =>
      obtain ⟨v2, zs⟩ := p
      have hsub : init.1 ⊆ v2 := hmono _ _ _ heq
      have hcard2 : (U \ v2).card < n := by
        have hsd : U \ v2 ⊆ U \ init.1 := Finset.sdiff_subset_sdiff (le_refl U) hsub
        exact lt_of_le_of_lt (Finset.card_le_card hsd) hcard
      simp only [crawlFold, heq]
      exact ih (v2, init.2 ++ zs) (fun x hx => hds x (List.mem_cons_of_mem d hx)) hcard2

theorem allItemUrls_mem (owner repo branch : String) :
    ∀ (pages : List (String × DirDoc)) (u : String) (doc : DirDoc),
      fetchDir pages u = some doc →
      ∀ it ∈ extractItems owner repo branch doc,
        it.url ∈ allItemUrls owner repo branch pages := by
  intro pages
  induction pages with
  | nil => intro u doc h; simp [fetchDir] at h
  | cons p ps ih =>
    intro u doc h it hit
    by_cases hp : (p.1 == u) = true
    · have hdoc : doc = p.2 := by
        simp only [fetchDir, List.find?, hp, Option.map_some'] at h
        exact (Option.some.inj h).symm
      subst hdoc
      exact List.mem_append_left _ (List.mem_map.mpr ⟨it, hit, rfl⟩)
    · have h2 : fetchDir ps u = some doc := by
        rw [Bool.not_eq_true] at hp
        simpa only [fetchDir, List.find?, hp] using h
      exact List.mem_append_right _ (ih u doc h2 it hit)

theorem crawlF_total (owner repo branch : String) (pages : List (String × DirDoc))
    (U : Finset String)
    (hclosed : ∀ u doc, fetchDir pages u = some doc →
      ∀ it ∈ extractItems owner repo branch doc, it.url ∈ U) :
    ∀ (fuel : Nat) (v : Finset String) (u : String),
      u ∈ U → (U \ v).card < fuel →
      (crawlF owner repo branch pages fuel v u).isSome = true := by
  intro fuel
  induction fuel with
  | zero => intro v u _ h; exact absurd h (Nat.not_lt_zero _)
  | succ n ih =>
    intro v u hu hcard
    by_cases hv : u ∈ v
    · simp [crawlF, hv]
    · simp only [crawlF, if_neg hv]
      cases hf : fetchDir pages u with
      | none => simp
      | some doc =>
        have huv : u ∈ U \ v := Finset.mem_sdiff.mpr ⟨hu, hv⟩
        have hcard2 : (U \ insert u v).card < n := by
          have h1 : U \ insert u v = (U \ v).erase u := by
            ext x
            simp only [Finset.mem_sdiff, Finset.mem_insert, Finset.mem_erase]
            tauto
          have h3 : 0 < (U \ v).card := Finset.card_pos.mpr ⟨u, huv⟩
          rw [h1, Finset.card_erase_of_mem huv]
          omega
        apply crawlFold_total (crawlF owner repo branch pages n) U n
          (crawlF_mono owner repo branch pages n) ih
        · intro d hd
          obtain ⟨it, hit, rfl⟩ := List.mem_map.mp hd
          exact hclosed u doc hf it (List.mem_of_mem_filter hit)
        · exact hcard2

/-! ### Claim theorems: discovery -/

/-- Claim C9: discovery terminates — with any fuel exceeding the number of
locators in the reachable universe the crawl completes (never runs out of
fuel), because every locator is inserted into the visited set before its
page is fetched, and a locator already in the visited set is not traversed
again (it returns immediately, yielding nothing). -/
theorem discovery_terminates (owner repo branch : String) (pages : List (String × DirDoc))
    (v : Finset String) (u : String) (fuel : Nat)
    (h : ((crawlUniverse owner repo branch pages u) \ v).card < fuel) :
    (crawlF owner repo branch pages fuel v u).isSome = true ∧
    (u ∈ v → crawlF owner repo branch pages fuel v u = some (v, [])) := by
  constructor
  · apply crawlF_total owner repo branch pages (crawlUniverse owner repo branch pages u)
      ?_ fuel v u (Finset.mem_insert_self u _) h
    intro u' doc hf it hit
    apply Finset.mem_insert_of_mem
    rw [List.mem_toFinset]
    exact allItemUrls_mem owner repo branch pages u' doc hf it hit
  · intro hv
    cases fuel with
    | zero => exact absurd h (Nat.not_lt_zero _)
    | succ n => simp [crawlF, hv]

/-- Witness for the termination theorem on a concrete small remote. -/
theorem discovery_terminates_witness :
    ((crawlUniverse "o" "r" "main" dupLinkPages "x") \ ∅).card < 3 ∧
    ((crawlF "o" "r" "main" dupLinkPages 3 ∅ "x").isSome = true ∧
     ("x" ∈ (∅ : Finset String) → crawlF "o" "r" "main" dupLinkPages 3 ∅ "x" = some (∅, []))) :=
  ⟨by decide, discovery_terminates "o" "r" "main" dupLinkPages ∅ "x" 3 (by decide)⟩

/-- Counterexample to claim C6: a root listing whose rendered HTML contains two
navigation links to the same path makes discovery yield that path twice —
the produced entry sequence is not duplicate-free. -/
theorem discovery_duplicate_paths :
    (crawlF "o" "r" "main" dupLinkPages 2 ∅ (rootUrl "o" "r" "main")).map
        (fun r => r.2.map Item.path) = some ["a.txt", "a.txt"] ∧
    ¬ (["a.txt", "a.txt"] : List String).Nodup := by
  exact ⟨by decide, by decide⟩

/-- Claim C6 amended: deduplication happens at the level of directory locators —
a locator already in the visited set is never traversed again and yields no
entries — but file entries are not deduplicated by path, so a listing that
links the same path twice yields it twice. -/
theorem visited_locator_not_retraversed (owner repo branch : String)
    (pages : List (String × DirDoc)) (fuel : Nat) (v : Finset String) (u : String)
    (hv : u ∈ v) :
    crawlF owner repo branch pages (fuel + 1) v u = some (v, []) := by
  simp [crawlF, hv]

/-- Witness for the visited-locator theorem. -/
theorem visited_locator_not_retraversed_witness :
    "x" ∈ ({"x"} : Finset String) ∧
    crawlF "o" "r" "main" [] (0 + 1) {"x"} "x" = some ({"x"}, []) :=
  ⟨by decide, visited_locator_not_retraversed "o" "r" "main" [] 0 {"x"} "x" (by decide)⟩

/-- Counterexample to claim C8: with three sibling directories of which the middle
one's listing fetch fails, the two remaining siblings are still fully
processed (both files written), but the errors counter stays 0 — the code
never increments `stats['errors']`, contradicting `errors >= 1`. -/
theorem dir_failure_errors_zero :
    fetchDir siblingPages "https://github.com/o/r/tree/main/b" = none ∧
    startRun siblingPages siblingDocs "o" "r" "main" "out"
      = (⟨[("out/a/f1", "hello"), ("out/c/f2", "world")], ["out", "out/a", "out/c"]⟩,
         ⟨2, 0, 0, 10, 0⟩) := by
  exact ⟨rfl, by decide⟩

/-- Claim C8 amended: a directory whose listing fetch fails is treated as an
empty directory (the crawl returns immediately with no entries, after
marking the locator visited) and its siblings continue to be processed;
the run's errors counter, however, is never incremented — it is 0 at the
end of every run. -/
theorem dir_failure_contained (owner repo branch : String)
    (pages : List (String × DirDoc)) (fileDocs : List (String × Doc))
    (outputDir : String) (fuel : Nat) (v : Finset String) (u : String)
    (h1 : fetchDir pages u = none) (h2 : u ∉ v) :
    crawlF owner repo branch pages (fuel + 1) v u = some (insert u v, []) ∧
    (startRun pages fileDocs owner repo branch outputDir).2.errors = 0 := by
  constructor
  · simp [crawlF, h1, h2]
  · unfold startRun
    dsimp only
    split
    · rfl
    · rw [processAll_errors]
      rfl

/-- Witness for the directory-failure theorem. -/
theorem dir_failure_contained_witness :
    (fetchDir [] "x" = none ∧ "x" ∉ (∅ : Finset String)) ∧
    (crawlF "o" "r" "main" [] (0 + 1) ∅ "x" = some (insert "x" ∅, []) ∧
     (startRun [] [] "o" "r" "main" "out").2.errors = 0) :=
  ⟨⟨rfl, by decide⟩,
   dir_failure_contained "o" "r" "main" [] [] "out" 0 ∅ "x" rfl (by decide)⟩

/-! ### Claim theorems: branch fallback -/

/-- Counterexample to claim C1: with a remote on which neither the `main` nor the
`master` root exists, the engine substitutes `master` and then, on the
second NotFound, completes the run normally with empty statistics — no
`RepositoryNotFoundError` (or any error value) is surfaced, and the errors
counter stays 0. -/
theorem branch_fallback_silent :
    resolveStartBranch [] "o" "r" "main" = "master" ∧
    startRun [] [] "o" "r" "main" "out" = (⟨[], []⟩, initStats) := by
  exact ⟨rfl, rfl⟩

/-- Claim C1 amended: when the root fetch fails and the branch in use is the
string `"main"` (whether implicit or explicitly passed), `"master"` is
substituted exactly once; any branch other than `"main"` is never
substituted; and when the `master` root also fails the run completes
normally with an empty filesystem and the initial (all-zero) statistics
rather than surfacing an error. -/
theorem branch_fallback_amended (pages : List (String × DirDoc))
    (fileDocs : List (String × Doc)) (owner repo outputDir b : String)
    (h1 : fetchDir pages (rootUrl owner repo "main") = none)
    (h2 : fetchDir pages (rootUrl owner repo "master") = none)
    (h3 : b ≠ "main") :
    resolveStartBranch pages owner repo "main" = "master" ∧
    resolveStartBranch pages owner repo b = b ∧
    startRun pages fileDocs owner repo "main" outputDir = (⟨[], []⟩, initStats) := by
  have hm : resolveStartBranch pages owner repo "main" = "master" := by
    simp [resolveStartBranch, h1]
  refine ⟨hm, ?_, ?_⟩
  · cases hb : fetchDir pages (rootUrl owner repo b) with
    | none => simp [resolveStartBranch, hb, h3]
    | some d => simp [resolveStartBranch, hb]
  · simp only [startRun, hm]
    simp [crawlF, h2, processAll]

/-- Witness for the amended branch-fallback theorem on the empty remote. -/
theorem branch_fallback_amended_witness :
    (fetchDir [] (rootUrl "o" "r" "main") = none ∧
     fetchDir [] (rootUrl "o" "r" "master") = none ∧ ("dev" : String) ≠ "main") ∧
    (resolveStartBranch [] "o" "r" "main" = "master" ∧
     resolveStartBranch [] "o" "r" "dev" = "dev" ∧
     startRun [] [] "o" "r" "main" "out" = (⟨[], []⟩, initStats)) :=
  ⟨⟨rfl, rfl, by decide⟩,
   branch_fallback_amended [] [] "o" "r" "out" "dev" rfl rfl (by decide)⟩

/-! ### Claim theorems: path resolution -/

theorem stripGitAll_id_of_no_occ : ∀ l : List Char, ¬ (gitPat <:+: l) → stripGitAll l = l := by
  intro l
  induction l using stripGitAll.induct with
  | case1 rest ih =>
    intro h
    exact absurd ⟨[], rest, rfl⟩ h
  | case2 c cs hne ih =>
    intro h
    have hcs : ¬ (gitPat <:+: cs) := fun hinf => h (List.infix_cons hinf)
    conv_lhs => rw [stripGitAll.eq_def]
    split
    · rename_i rest heq
      injection heq with e1 e2
      exact absurd (hne rest e1 e2) id
    · rename_i heq
      injection heq with e1 e2
      subst e1; subst e2
      rw [ih hcs]
    · rename_i heq
      cases heq
  | case3 => intro _; rfl

theorem stripGitAll_append_git :
    ∀ l : List Char, ¬ (gitPat <:+: l) → stripGitAll (l ++ gitPat) = l := by
  intro l
  induction l using stripGitAll.induct with
  | case1 rest ih =>
    intro h
    exact absurd ⟨[], rest, rfl⟩ h
  | case2 c cs hne ih =>
    intro h
    have hcs : ¬ (gitPat <:+: cs) := fun hinf => h (List.infix_cons hinf)
    show stripGitAll (c :: (cs ++ gitPat)) = c :: cs
    conv_lhs => rw [stripGitAll.eq_def]
    split
    · rename_i rest heq
      injection heq with e1 e2
      exfalso
      match cs, e2 with
      | [], e2 => simp [gitPat] at e2
      | [a], e2 => simp [gitPat] at e2
      | [a, b], e2 => simp [gitPat] at e2
      | a :: b :: d :: cs3, e2 =>
        injection e2 with f1 e2
        injection e2 with f2 e2
        injection e2 with f3 e2
        exact hne cs3 e1 (by rw [f1, f2, f3])
    · rename_i heq
      injection heq with e1 e2
      subst e1
      rw [← e2, ih hcs]
    · rename_i heq
      cases heq
  | case3 => intro _; rfl

/-- Counterexample to claim C5: a `".git"` occurring in the middle of the repository
name is not preserved — `.replace('.git','')` removes every occurrence, so
`/o/my.github.io` resolves to name `myhub.io`, not `my.github.io`. -/
theorem parse_strips_inner_git :
    parseRepoPath "/o/my.github.io" = some ("o", "myhub.io") ∧
    ("myhub.io" : String) ≠ "my.github.io" := by
  exact ⟨rfl, by decide⟩

/-- Claim C5 amended: resolution fails exactly when the stripped URL path splits
into fewer than two segments; on success the owner is the first segment and
the name is the second segment with every occurrence of `".git"` removed —
in particular a trailing `".git"` is stripped, and a name containing no
`".git"` at all is returned unchanged; the branch defaults to `"main"`
unless explicitly overridden. -/
theorem parse_repo_url_amended (path : String) (owner base : List Char)
    (rest : List (List Char)) (b : String)
    (h4 : ¬ (gitPat <:+: base)) :
    (parseRepoPath path = none ↔ (splitSlash (stripSlashes path.data)).length < 2) ∧
    (splitSlash (stripSlashes path.data) = owner :: (base ++ gitPat) :: rest →
      parseRepoPath path = some (⟨owner⟩, ⟨base⟩)) ∧
    (splitSlash (stripSlashes path.data) = owner :: base :: rest →
      parseRepoPath path = some (⟨owner⟩, ⟨base⟩)) ∧
    initBranch none = "main" ∧ initBranch (some b) = b := by
  refine ⟨?_, ?_, ?_, rfl, rfl⟩
  · cases hs : splitSlash (stripSlashes path.data) with
    | nil => simp [parseRepoPath, hs]
    | cons p0 t =>
      cases t with
      | nil => simp [parseRepoPath, hs]
      | cons p1 t2 => simp [parseRepoPath, hs]
  · intro hs
    simp only [parseRepoPath, hs]
    rw [stripGitAll_append_git base h4]
  · intro hs
    simp only [parseRepoPath, hs]
    rw [stripGitAll_id_of_no_occ base h4]

/-- Witness for the amended path-resolution theorem at
`/acme/widgets.git`. -/
theorem parse_repo_url_amended_witness :
    (¬ (gitPat <:+: "widgets".data)) ∧
    ((parseRepoPath "/acme/widgets.git" = none ↔
        (splitSlash (stripSlashes "/acme/widgets.git".data)).length < 2) ∧
     (splitSlash (stripSlashes "/acme/widgets.git".data)
          = "acme".data :: ("widgets".data ++ gitPat) :: [] →
        parseRepoPath "/acme/widgets.git" = some (⟨"acme".data⟩, ⟨"widgets".data⟩)) ∧
     (splitSlash (stripSlashes "/acme/widgets.git".data)
          = "acme".data :: "widgets".data :: [] →
        parseRepoPath "/acme/widgets.git" = some (⟨"acme".data⟩, ⟨"widgets".data⟩)) ∧
     initBranch none = "main" ∧ initBranch (some "dev") = "dev") :=
  ⟨by decide,
   parse_repo_url_amended "/acme/widgets.git" "acme".data "widgets".data [] "dev" (by decide)⟩

end GithubDownloader
